import Mathlib

/-!
Verification of the DependencyWheel chart (src/js/d3.dependencyWheel.js).

The source is a d3 chart factory.  Its own code comprises: option resolution
(lines 34-39), the node-selection callback `getChosenNode` (lines 119-139),
the hover fading handlers `fade` / `fadeOut` / `fadeIn` (lines 81-117), and
the root rotation offset (lines 141-142).  These are embedded directly from
the source.

The chord layout itself is delegated to `d3.layout.chord()` (lines 56-58 and
114), a library whose code is not part of this repository; the Chord Layout
Engine is therefore modelled from the specification (sections 3, 4.1 and 7),
as noted on each of those definitions.

Weights and angles are JS floating-point numbers in the source; the embedding
works over an arbitrary linear ordered field so the theorems hold in
particular over the real numbers, while every definition stays executable at
the rationals.
-/

namespace DepWheel

section Defs

variable {α : Type} [LinearOrderedField α] {P : Type}

/-- Entry `matrix[i][j]` of a row-major matrix; out-of-range access yields 0
(the chart only reads in-range entries of a square matrix). -/
def mEntry (m : List (List α)) (i j : Nat) : α := (m.getD i []).getD j 0

/-- Configuration options passed to `d3.chart.dependencyWheel(options)`
(source line 34); a field is `none` when the key is absent from the options
object (JS `undefined`). -/
structure Options where
  width : Option ℚ
  margin : Option ℚ
  padding : Option ℚ

/-- Source line 37, `var width = options.width || 700`: an absent key or the
falsy number 0 falls back to the default. -/
def resolveWidth (o : Options) : ℚ :=
  match o.width with
  | none => 700
  | some v => if v = 0 then 700 else v

/-- Source line 38, `var margin = options.margin || 150`. -/
def resolveMargin (o : Options) : ℚ :=
  match o.margin with
  | none => 150
  | some v => if v = 0 then 150 else v

/-- Source line 39, `var padding = options.padding || 0.02`. -/
def resolvePadding (o : Options) : ℚ :=
  match o.padding with
  | none => 1 / 50
  | some v => if v = 0 then 1 / 50 else v

/-- A JavaScript value that can appear in the arrays built by `getChosenNode`
(source lines 122-139): `undefined` (a `map` callback that falls through
without returning), `false` (produced by the short-circuit of `&&`), a
package-name string, or an element of the caller's `packages` array (opaque,
of type `P`). -/
inductive JVal (P : Type) where
  | undef : JVal P
  | fls : JVal P
  | str : String → JVal P
  | pkg : P → JVal P
deriving DecidableEq, Repr

/-- JS truthiness of a `JVal`, as tested by `filterTrue` (source lines
119-121): `undefined` and `false` are falsy, a string is truthy iff it is
non-empty, an object is always truthy. -/
def JVal.truthy {P : Type} : JVal P → Bool
  | .undef => false
  | .fls => false
  | .str s => s != ("")
  | .pkg _ => true

/-- JS `Array.prototype.map` hands the callback the element and its index;
this is the index-threading map the embeddings of those calls use. -/
def jsMapIdx {β γ : Type} (f : Nat → β → γ) : Nat → List β → List γ
  | _, [] => []
  | i, b :: rest => f i b :: jsMapIdx f (i + 1) rest

/-- The value the source reads for node `j`: `packages ? packages[j] :
packageNames[j]`.  A JS out-of-range array read yields `undefined`. -/
def nodeVal (packages : Option (List P)) (names : List String) (j : Nat) :
    JVal P :=
  match packages with
  | some ps =>
    match ps.get? j with
    | some p => JVal.pkg p
    | none => JVal.undef
  | none =>
    match names.get? j with
    | some s => JVal.str s
    | none => JVal.undef

/-- Source lines 127-132, the second callback argument (dependencies of the
selected node `idx`):
`matrix[idx].map(function(v, idx){ if (v) { return packages ? packages[idx] :
packageNames[idx]; } }).filter(filterTrue)`.
The inner callback parameter `idx` shadows the selected index, so inside the
map it is the column index `j`; a zero weight makes the callback return
`undefined`, which the filter removes. -/
def depsList (m : List (List α)) (names : List String)
    (packages : Option (List P)) (idx : Nat) : List (JVal P) :=
  (jsMapIdx
      (fun j v => if v ≠ 0 then nodeVal packages names j else JVal.undef)
      0 (m.getD idx [])).filter (JVal.truthy)

/-- Source lines 133-138, the third callback argument (nodes that depend on
the selected node `idx`):
`matrix.map(function(arr, i){ return arr[idx] != 0 && (packages ?
packages[idx] : packageNames[i]); }).filter(filterTrue)`.
Note that the packages branch reads `packages[idx]` — the selected index —
while the names branch reads `packageNames[i]`, the row index.  A zero weight
makes `&&` yield `false`, which the filter removes.  For a square matrix
`arr[idx]` is always in range, which is what `getD` with default 0 models. -/
def requiresList (m : List (List α)) (names : List String)
    (packages : Option (List P)) (idx : Nat) : List (JVal P) :=
  (jsMapIdx
      (fun i arr =>
        if arr.getD idx 0 ≠ 0 then
          match packages with
          | some ps =>
            match ps.get? idx with
            | some p => JVal.pkg p
            | none => JVal.undef
          | none =>
            match names.get? i with
            | some s => JVal.str s
            | none => JVal.undef
        else JVal.fls)
      0 m).filter (JVal.truthy)

/-- Modelled from the spec: a sub-arc, the portion of a group's angular span
dedicated to one specific edge (spec section 3, ChordRecord; glossary).  The
repository delegates this computation to `d3.layout.chord()` (source lines
56-58), whose code is not part of this repository.  `index` is the owning
group, `subindex` the node at the other end of the edge, `outgoing` whether
the edge leaves (`matrix[index][subindex]`) or enters
(`matrix[subindex][index]`) the owning group. -/
structure SubArc (α : Type) where
  index : Nat
  subindex : Nat
  outgoing : Bool
  startAngle : α
  endAngle : α
  value : α
deriving DecidableEq, Repr

/-- Modelled from the spec: the angular sector assigned to one node (spec
section 3, Group); the layout code lives in `d3.layout.chord()`, not in this
repository. -/
structure ArcGroup (α : Type) where
  index : Nat
  startAngle : α
  endAngle : α
  value : α
deriving DecidableEq, Repr

/-- Modelled from the spec: one chord per non-zero off-diagonal matrix entry,
with a source sub-arc and a target sub-arc (spec section 3, ChordRecord); the
layout code lives in `d3.layout.chord()`, not in this repository. -/
structure ChordRecord (α : Type) where
  source : SubArc α
  target : SubArc α
deriving DecidableEq, Repr

/-- Modelled from the spec: a sub-arc descriptor before angles are assigned —
its direction, the node at the other end, its position in the original
enumeration (used as the stable tie-break of the sort), and its weight. -/
structure RawArc (α : Type) where
  outgoing : Bool
  other : Nat
  pos : Nat
  value : α
deriving DecidableEq, Repr

/-- Tags each entry of a list with its position, starting at `p`. -/
def withPos : Nat → List (Bool × Nat × α) → List (RawArc α)
  | _, [] => []
  | p, (o, j, v) :: rest => ⟨o, j, p, v⟩ :: withPos (p + 1) rest

/-- Modelled from the spec: the sub-arc descriptors of group `i` — one per
outgoing non-zero entry `(i, j)` and one per incoming non-zero entry
`(j, i)`, `j ≠ i` (spec section 4.1: each group's span is subdivided into one
sub-arc per outgoing and incoming non-zero entry; diagonal excluded per
section 3). -/
def rawArcs (m : List (List α)) (i : Nat) : List (RawArc α) :=
  withPos 0
    (((List.range m.length).filterMap fun j =>
        if i ≠ j ∧ 0 < mEntry m i j then some (true, j, mEntry m i j)
        else none) ++
      ((List.range m.length).filterMap fun j =>
        if i ≠ j ∧ 0 < mEntry m j i then some (false, j, mEntry m j i)
        else none))

/-- Modelled from the spec: the subgroup ordering — descending weight, ties
kept in original order, i.e. the stable sort of spec sections 3 and 4.1
(`sortSubgroups(d3.descending)`, source line 58). -/
def arcLe (a b : RawArc α) : Prop :=
  b.value < a.value ∨ (a.value = b.value ∧ a.pos ≤ b.pos)

instance : DecidableRel (arcLe (α := α)) := fun a b =>
  inferInstanceAs
    (Decidable (b.value < a.value ∨ (a.value = b.value ∧ a.pos ≤ b.pos)))

instance : IsTotal (RawArc α) arcLe :=
  ⟨fun a b => by
    rcases lt_trichotomy a.value b.value with h | h | h
    · exact Or.inr (Or.inl h)
    · rcases Nat.le_total a.pos b.pos with hp | hp
      · exact Or.inl (Or.inr ⟨h, hp⟩)
      · exact Or.inr (Or.inr ⟨h.symm, hp⟩)
    · exact Or.inl (Or.inl h)⟩

instance : IsTrans (RawArc α) arcLe :=
  ⟨fun a b c hab hbc => by
    rcases hab with h1 | ⟨h1, p1⟩ <;> rcases hbc with h2 | ⟨h2, p2⟩
    · exact Or.inl (h2.trans h1)
    · exact Or.inl (h2 ▸ h1)
    · exact Or.inl (h1 ▸ h2)
    · exact Or.inr ⟨h1.trans h2, p1.trans p2⟩⟩

/-- Modelled from the spec: group `i`'s sub-arc descriptors sorted by
descending weight with the stable tie-break. -/
def sortedArcs (m : List (List α)) (i : Nat) : List (RawArc α) :=
  List.insertionSort arcLe (rawArcs m i)

/-- Modelled from the spec: node `i`'s total weight — sum of row `i`,
excluding the diagonal (spec section 4.1: sum of row + column, excluding
diagonal; this is the row part). -/
def rowTotal (m : List (List α)) (i : Nat) : α :=
  (((List.range m.length).map fun j =>
    if j = i then 0 else mEntry m i j)).sum

/-- Modelled from the spec: the column part of node `i`'s total weight,
excluding the diagonal. -/
def colTotal (m : List (List α)) (i : Nat) : α :=
  (((List.range m.length).map fun j =>
    if j = i then 0 else mEntry m j i)).sum

/-- Modelled from the spec: node `i`'s total weight, sum of row + column
excluding the diagonal (spec section 4.1). -/
def groupTotal (m : List (List α)) (i : Nat) : α :=
  rowTotal m i + colTotal m i

/-- Modelled from the spec: the sum of all group weights, against which the
angular space is apportioned. -/
def grandTotal (m : List (List α)) : α :=
  (((List.range m.length).map fun i => groupTotal m i)).sum

/-- Modelled from the spec: angle per unit of weight.  The data angle is the
full circle minus `N` paddings (spec section 4.1: effective data angle =
2π − N·padding).  `twoPi` stands for the full-circle constant 2π, kept as a
parameter so the development stays in an arbitrary ordered field.  For an
all-zero matrix the field division by zero yields 0, giving every group a
zero-width sector. -/
def angleScale (twoPi padding : α) (m : List (List α)) : α :=
  (twoPi - padding * m.length) / grandTotal m

/-- Modelled from the spec: the start angle of group `i` — groups are laid
out consecutively from angle 0 in index order, `padding` radians between
consecutive groups (spec section 4.1). -/
def groupStart (twoPi padding : α) (m : List (List α)) (i : Nat) : α :=
  (((List.range i).map fun j => groupTotal m j)).sum
      * angleScale twoPi padding m
    + (i : α) * padding

/-- Modelled from the spec: the angular sector of group `i`, its span
proportional to its total weight. -/
def mkGroup (twoPi padding : α) (m : List (List α)) (i : Nat) : ArcGroup α :=
  { index := i
    startAngle := groupStart twoPi padding m i
    endAngle := groupStart twoPi padding m i
      + groupTotal m i * angleScale twoPi padding m
    value := groupTotal m i }

/-- Modelled from the spec: the list of group sectors, one per node. -/
def layoutGroups (twoPi padding : α) (m : List (List α)) :
    List (ArcGroup α) :=
  (List.range m.length).map fun i => mkGroup twoPi padding m i

/-- Modelled from the spec: packs the sorted sub-arc descriptors of group `i`
consecutively from angle `x`, each sub-arc's width proportional to its weight
(spec section 4.1). -/
def packArcs (i : Nat) (k : α) : α → List (RawArc α) → List (SubArc α)
  | _, [] => []
  | x, a :: rest =>
    ⟨i, a.other, a.outgoing, x, x + a.value * k, a.value⟩
      :: packArcs i k (x + a.value * k) rest

/-- Modelled from the spec: the positioned sub-arcs of group `i`. -/
def groupArcs (twoPi padding : α) (m : List (List α)) (i : Nat) :
    List (SubArc α) :=
  packArcs i (angleScale twoPi padding m) (groupStart twoPi padding m i)
    (sortedArcs m i)

/-- Modelled from the spec: the sub-arc of group `i` serving the edge with
node `j` in the given direction.  The fallback (never reached for an edge
that exists) is a degenerate sub-arc carrying the same indices. -/
def subArcOf (twoPi padding : α) (m : List (List α)) (i j : Nat)
    (o : Bool) : SubArc α :=
  ((groupArcs twoPi padding m i).find? fun a =>
      a.outgoing == o && a.subindex == j).getD ⟨i, j, o, 0, 0, 0⟩

/-- Modelled from the spec: the chord of the directed edge `(i, j)` — its
source is the outgoing sub-arc of group `i` for `j`, its target the incoming
sub-arc of group `j` for `i` (spec section 3). -/
def mkChord (twoPi padding : α) (m : List (List α)) (i j : Nat) :
    ChordRecord α :=
  { source := subArcOf twoPi padding m i j true
    target := subArcOf twoPi padding m j i false }

/-- Modelled from the spec: one ChordRecord per matrix cell `(i, j)` with
value > 0 and `i ≠ j` (spec section 4.1), enumerated in row-major order
(ordering across chords is unspecified by the spec). -/
def layoutChords (twoPi padding : α) (m : List (List α)) :
    List (ChordRecord α) :=
  (List.range m.length).flatMap fun i =>
    (List.range m.length).filterMap fun j =>
      if i ≠ j ∧ 0 < mEntry m i j then some (mkChord twoPi padding m i j)
      else none

/-- Modelled from the spec: the two failure modes of the layout — a malformed
matrix (spec section 7, ValidationError) and an inter-group padding so large
that the sectors would collapse or invert (spec section 7, LayoutError). -/
inductive LayoutErr where
  | validationError : LayoutErr
  | layoutError : LayoutErr
deriving DecidableEq, Repr

/-- Squareness check: every row as long as the matrix (spec section 7). -/
def isSquare (m : List (List α)) : Bool :=
  m.all fun row => row.length == m.length

/-- Negative-weight check (spec section 7: negative weights are malformed). -/
def hasNeg (m : List (List α)) : Bool :=
  m.any fun row => row.any fun v => decide (v < 0)

/-- Modelled from the spec: the layout output, groups plus chords (spec
section 4.1 contract). -/
structure LayoutResult (α : Type) where
  groups : List (ArcGroup α)
  chords : List (ChordRecord α)
deriving DecidableEq, Repr

/-- Modelled from the spec: the Chord Layout Engine contract
`layout(matrix, padding)` (spec section 4.1), with the error checks of spec
section 7 performed before any angle is allocated: a malformed matrix fails
with ValidationError, and `padding · N ≥ 2π` fails with LayoutError. -/
def layout (twoPi padding : α) (m : List (List α)) :
    Except LayoutErr (LayoutResult α) :=
  if isSquare m then
    if hasNeg m then Except.error LayoutErr.validationError
    else if twoPi ≤ padding * m.length then Except.error LayoutErr.layoutError
    else Except.ok
      ⟨layoutGroups twoPi padding m, layoutChords twoPi padding m⟩
  else Except.error LayoutErr.validationError

/-- Source line 141: `var rootGroup = chord.groups()[0]`. -/
def rootGroup (res : LayoutResult α) : ArcGroup α :=
  res.groups.getD 0 ⟨0, 0, 0, 0⟩

/-- Source line 142:
`var rotation = -(rootGroup.endAngle - rootGroup.startAngle) / 2 * (180 / Math.PI)`.
The factor 180/π only converts radians to degrees for the SVG transform
string; the embedding keeps the angle in radians. -/
def rotation (res : LayoutResult α) : α :=
  -((rootGroup res).endAngle - (rootGroup res).startAngle) / 2

/-- The directed index pair of each emitted chord, in chord-list order; a
proof device used to state and prove chord uniqueness. -/
def chordPairs (m : List (List α)) : List (Nat × Nat) :=
  (List.range m.length).flatMap fun i =>
    (List.range m.length).filterMap fun j =>
      if i ≠ j ∧ 0 < mEntry m i j then some (i, j) else none

/-- The opacity state the fade handlers mutate: one opacity per chord path
(in chord-list order, source lines 173-179) and one per group label (indexed
by group index, source lines 144-150). -/
structure FadeState (α : Type) where
  chordOps : List α
  labelOps : List α
deriving DecidableEq, Repr

/-- Source lines 90-100: the `groups` array collected by the fade handler for
focus index `i` — for each chord, the target index when its source is `i` and
the source index when its target is `i`, then `i` itself is pushed. -/
def relatedGroups (i : Nat) (chs : List (ChordRecord α)) : List Nat :=
  (chs.flatMap fun c =>
    (if c.source.index = i then [c.target.index] else []) ++
      (if c.target.index = i then [c.source.index] else [])) ++ [i]

/-- Source lines 84-89: set opacity `o` on every chord whose source and
target index both differ from the focus index `i`; other chords keep their
opacity. -/
def fadeChords (o : α) (i : Nat) (chs : List (ChordRecord α))
    (ops : List α) : List α :=
  List.zipWith
    (fun c op =>
      if c.source.index ≠ i ∧ c.target.index ≠ i then o else op)
    chs ops

/-- Source lines 102-110: set opacity `o` on every group label whose index
appears nowhere in `grs`; labels in `grs` keep their opacity.  `g` is the
index of the first label of the list. -/
def fadeLabels (o : α) (grs : List Nat) : Nat → List α → List α
  | _, [] => []
  | g, op :: rest =>
    (if g ∈ grs then op else o) :: fadeLabels o grs (g + 1) rest

/-- Source lines 81-112: the fade handler for opacity `o` and focus index
`i`, acting on the chords and labels of the rendered wheel. -/
def fade (o : α) (i : Nat) (chs : List (ChordRecord α)) (st : FadeState α) :
    FadeState α :=
  ⟨fadeChords o i chs st.chordOps,
    fadeLabels o (relatedGroups i chs) 0 st.labelOps⟩

/-- Source line 116: `var fadeOut = fade(0.1)`. -/
def fadeOut (i : Nat) (chs : List (ChordRecord α)) (st : FadeState α) :
    FadeState α :=
  fade (1 / 10) i chs st

/-- Source line 117: `var fadeIn = fade(1)`. -/
def fadeIn (i : Nat) (chs : List (ChordRecord α)) (st : FadeState α) :
    FadeState α :=
  fade 1 i chs st

/-- The initial opacity state: every chord is created with opacity 1 (source
line 183) and labels are rendered undimmed; `n` is the number of groups. -/
def neutral (chs : List (ChordRecord α)) (n : Nat) : FadeState α :=
  ⟨List.replicate chs.length 1, List.replicate n 1⟩

end Defs

section Lemmas

variable {α : Type} [LinearOrderedField α] {P : Type}

theorem layout_ok_elim {twoPi padding : α} {m : List (List α)}
    {res : LayoutResult α} (h : layout twoPi padding m = Except.ok res) :
    res = ⟨layoutGroups twoPi padding m, layoutChords twoPi padding m⟩ := by
  unfold layout at h
  split_ifs at h
  exact (Except.ok.inj h).symm

theorem fadeChords_double {o : α} {i : Nat} :
    ∀ chs : List (ChordRecord α),
      fadeChords 1 i chs (fadeChords o i chs (List.replicate chs.length 1))
        = List.replicate chs.length 1 := by
  intro chs
  induction chs with
  | nil => rfl
  | cons c rest ih =>
    simp only [List.length_cons, List.replicate_succ, fadeChords,
      List.zipWith_cons_cons] at ih ⊢
    by_cases h : c.source.index ≠ i ∧ c.target.index ≠ i
    · simp only [if_pos h]
      exact congrArg (List.cons 1) ih
    · simp only [if_neg h]
      exact congrArg (List.cons 1) ih

theorem fadeLabels_double {o : α} {grs : List Nat} :
    ∀ (n g : Nat),
      fadeLabels 1 grs g (fadeLabels o grs g (List.replicate n 1))
        = List.replicate n 1 := by
  intro n
  induction n with
  | zero => intro g; rfl
  | succ k ih =>
    intro g
    simp only [List.replicate_succ, fadeLabels]
    by_cases h : g ∈ grs
    · simp only [if_pos h]
      exact congrArg (List.cons 1) (ih (g + 1))
    · simp only [if_neg h]
      exact congrArg (List.cons 1) (ih (g + 1))

theorem mem_ite_some_none {γ : Type} {c : Prop} [Decidable c] {v b : γ}
    (hb : b ∈ (if c then some v else none)) : c ∧ b = v := by
  by_cases hc : c
  · rw [if_pos hc] at hb
    exact ⟨hc, (Option.some.inj hb).symm⟩
  · rw [if_neg hc] at hb
    exact absurd hb (Option.not_mem_none b)

theorem packArcs_index {i : Nat} {k : α} :
    ∀ {x : α} {l : List (RawArc α)} {a : SubArc α},
      a ∈ packArcs i k x l → a.index = i := by
  intro x l
  induction l generalizing x with
  | nil => intro a ha; simp [packArcs] at ha
  | cons b rest ih =>
    intro a ha
    simp only [packArcs] at ha
    rcases List.mem_cons.mp ha with h | h
    · subst h; rfl
    · exact ih h

theorem subArcOf_index (twoPi padding : α) (m : List (List α)) (i j : Nat)
    (o : Bool) : (subArcOf twoPi padding m i j o).index = i := by
  unfold subArcOf
  cases hf : (groupArcs twoPi padding m i).find? fun a =>
      a.outgoing == o && a.subindex == j with
  | none => simp [hf]
  | some a =>
    simp only [hf, Option.getD_some]
    have hm : a ∈ groupArcs twoPi padding m i := List.mem_of_find?_eq_some hf
    exact packArcs_index (by simpa [groupArcs] using hm)

theorem mkChord_source_index (twoPi padding : α) (m : List (List α))
    (i j : Nat) : (mkChord twoPi padding m i j).source.index = i :=
  subArcOf_index twoPi padding m i j true

theorem mkChord_target_index (twoPi padding : α) (m : List (List α))
    (i j : Nat) : (mkChord twoPi padding m i j).target.index = j :=
  subArcOf_index twoPi padding m j i false

theorem mem_layoutChords {twoPi padding : α} {m : List (List α)}
    {c : ChordRecord α} :
    c ∈ layoutChords twoPi padding m ↔
      ∃ i j, i < m.length ∧ j < m.length ∧ i ≠ j ∧ 0 < mEntry m i j ∧
        c = mkChord twoPi padding m i j := by
  unfold layoutChords
  rw [List.mem_flatMap]
  constructor
  · rintro ⟨i, hi, hmem⟩
    rcases List.mem_filterMap.mp hmem with ⟨j, hj, hfj⟩
    rcases mem_ite_some_none hfj with ⟨⟨hne, hpos⟩, rfl⟩
    exact ⟨i, j, List.mem_range.mp hi, List.mem_range.mp hj, hne, hpos, rfl⟩
  · rintro ⟨i, j, hi, hj, hne, hpos, rfl⟩
    refine ⟨i, List.mem_range.mpr hi, List.mem_filterMap.mpr ⟨j,
      List.mem_range.mpr hj, ?_⟩⟩
    rw [if_pos ⟨hne, hpos⟩]

theorem layoutChords_map_pair (twoPi padding : α) (m : List (List α)) :
    (layoutChords twoPi padding m).map
        (fun c => (c.source.index, c.target.index))
      = chordPairs m := by
  unfold layoutChords chordPairs
  rw [List.map_flatMap]
  congr 1
  funext i
  rw [List.map_filterMap]
  congr 1
  funext j
  by_cases h : i ≠ j ∧ 0 < mEntry m i j
  · rw [if_pos h, if_pos h]
    simp only [Option.map_some', mkChord_source_index, mkChord_target_index]
  · rw [if_neg h, if_neg h]
    rfl

theorem chordPairs_nodup (m : List (List α)) : (chordPairs m).Nodup := by
  unfold chordPairs
  rw [List.nodup_flatMap]
  constructor
  · intro i _
    refine List.Nodup.filterMap ?_ (List.nodup_range _)
    intro a b p hp hp2
    rcases mem_ite_some_none hp with ⟨_, rfl⟩
    rcases mem_ite_some_none hp2 with ⟨_, h2⟩
    exact congrArg Prod.snd h2
  · refine (List.pairwise_lt_range _).imp ?_
    intro i j hij p hp hp2
    rcases List.mem_filterMap.mp hp with ⟨a, _, ha⟩
    rcases List.mem_filterMap.mp hp2 with ⟨b, _, hb⟩
    rcases mem_ite_some_none ha with ⟨_, rfl⟩
    rcases mem_ite_some_none hb with ⟨_, hb2⟩
    exact absurd (congrArg Prod.fst hb2) (Nat.ne_of_lt hij)

theorem countP_eq_one_of_nodup_mem {γ : Type} [DecidableEq γ] {a : γ} :
    ∀ {l : List γ}, l.Nodup → a ∈ l →
      l.countP (fun x => decide (x = a)) = 1 := by
  intro l
  induction l with
  | nil => intro _ h; cases h
  | cons b rest ih =>
    intro hnd hmem
    rw [List.countP_cons]
    rcases List.mem_cons.mp hmem with rfl | hmem2
    · have har : a ∉ rest := (List.nodup_cons.mp hnd).1
      have hz : rest.countP (fun x => decide (x = a)) = 0 := by
        rw [List.countP_eq_zero]
        intro x hx
        simp only [decide_eq_true_eq]
        exact fun hxa => har (hxa ▸ hx)
      simp [hz]
    · have hnb : b ≠ a := fun h =>
        (List.nodup_cons.mp hnd).1 (h ▸ hmem2)
      rw [ih (List.nodup_cons.mp hnd).2 hmem2]
      simp [hnb]

theorem mem_chordPairs {m : List (List α)} {i j : Nat} :
    (i, j) ∈ chordPairs m ↔
      i < m.length ∧ j < m.length ∧ i ≠ j ∧ 0 < mEntry m i j := by
  unfold chordPairs
  rw [List.mem_flatMap]
  constructor
  · rintro ⟨a, ha, hmem⟩
    rcases List.mem_filterMap.mp hmem with ⟨b, hb, hfb⟩
    rcases mem_ite_some_none hfb with ⟨⟨hne, hpos⟩, hab⟩
    obtain ⟨rfl, rfl⟩ : a = i ∧ b = j := by
      have h1 := congrArg Prod.fst hab
      have h2 := congrArg Prod.snd hab
      exact ⟨h1.symm, h2.symm⟩
    exact ⟨List.mem_range.mp ha, List.mem_range.mp hb, hne, hpos⟩
  · rintro ⟨hi, hj, hne, hpos⟩
    refine ⟨i, List.mem_range.mpr hi, List.mem_filterMap.mpr ⟨j,
      List.mem_range.mpr hj, ?_⟩⟩
    rw [if_pos ⟨hne, hpos⟩]

theorem jsMapIdx_getElem {β γ : Type} (f : Nat → β → γ) :
    ∀ (l : List β) (g k : Nat),
      (jsMapIdx f g l)[k]? = (l[k]?).map fun b => f (g + k) b := by
  intro l
  induction l with
  | nil => intro g k; rfl
  | cons b rest ih =>
    intro g k
    cases k with
    | zero => simp [jsMapIdx]
    | succ k2 =>
      simp only [jsMapIdx, List.getElem?_cons_succ]
      rw [ih (g + 1) k2]
      have harith : g + 1 + k2 = g + (k2 + 1) := by omega
      rw [harith]

theorem depsList_nil_of_zero_row (m : List (List α)) (names : List String)
    (pk : Option (List P)) (idx : Nat)
    (h : ∀ v ∈ m.getD idx [], v = 0) : depsList m names pk idx = [] := by
  unfold depsList
  suffices hs : ∀ (row : List α) (g : Nat), (∀ v ∈ row, v = 0) →
      (jsMapIdx
          (fun j v => if v ≠ 0 then nodeVal pk names j else JVal.undef)
          g row).filter (JVal.truthy) = [] by
    exact hs _ 0 h
  intro row
  induction row with
  | nil => intro g _; rfl
  | cons v rest ih =>
    intro g hz
    have hv : v = 0 := hz v (List.mem_cons_self v rest)
    subst hv
    simp only [jsMapIdx, List.filter_cons]
    rw [if_neg (show ¬((0 : α) ≠ 0) from fun hh => hh rfl)]
    rw [show (JVal.truthy (P := P) JVal.undef) = false from rfl]
    simp only [Bool.false_eq_true, if_false]
    exact ih (g + 1) fun w hw => hz w (List.mem_cons_of_mem _ hw)

theorem requiresList_nil_of_zero_col (m : List (List α))
    (names : List String) (pk : Option (List P)) (idx : Nat)
    (h : ∀ row ∈ m, row.getD idx 0 = 0) : requiresList m names pk idx = [] := by
  unfold requiresList
  suffices hs : ∀ (rows : List (List α)) (g : Nat),
      (∀ row ∈ rows, row.getD idx 0 = 0) →
      (jsMapIdx
          (fun i arr =>
            if arr.getD idx 0 ≠ 0 then
              match pk with
              | some ps =>
                match ps.get? idx with
                | some p => JVal.pkg p
                | none => JVal.undef
              | none =>
                match names.get? i with
                | some s => JVal.str s
                | none => JVal.undef
            else JVal.fls)
          g rows).filter (JVal.truthy) = [] by
    exact hs m 0 h
  intro rows
  induction rows with
  | nil => intro g _; rfl
  | cons row rest ih =>
    intro g hz
    have hv : row.getD idx 0 = 0 := hz row (List.mem_cons_self row rest)
    simp only [jsMapIdx, List.filter_cons]
    rw [if_neg (show ¬(row.getD idx 0 ≠ 0) from fun hh => hh hv)]
    rw [show (JVal.truthy (P := P) JVal.fls) = false from rfl]
    simp only [Bool.false_eq_true, if_false]
    exact ih (g + 1) fun w hw => hz w (List.mem_cons_of_mem _ hw)

theorem fadeLabels_getD {o : α} {grs : List Nat} :
    ∀ (ops : List α) (g0 k : Nat) (d : α), k < ops.length →
      (fadeLabels o grs g0 ops).getD k d
        = if (g0 + k) ∈ grs then ops.getD k d else o := by
  intro ops
  induction ops with
  | nil =>
    intro g0 k d hk
    simp at hk
  | cons x rest ih =>
    intro g0 k d hk
    cases k with
    | zero => simp [fadeLabels]
    | succ k2 =>
      simp only [fadeLabels, List.getD_cons_succ]
      rw [ih (g0 + 1) k2 d (Nat.lt_of_succ_lt_succ (by simpa using hk))]
      have harith : g0 + 1 + k2 = g0 + (k2 + 1) := by omega
      rw [harith]

theorem fadeChords_getD {o : α} {i : Nat} :
    ∀ (chs : List (ChordRecord α)) (ops : List α) (k : Nat)
      (ch : ChordRecord α) (d : α), chs[k]? = some ch → k < ops.length →
      (fadeChords o i chs ops).getD k d
        = if ch.source.index ≠ i ∧ ch.target.index ≠ i then o
          else ops.getD k d := by
  intro chs
  induction chs with
  | nil =>
    intro ops k ch d hch _
    simp at hch
  | cons c rest ih =>
    intro ops k ch d hch hk
    cases ops with
    | nil => simp at hk
    | cons op opsr =>
      cases k with
      | zero =>
        rw [List.getElem?_cons_zero] at hch
        obtain rfl : c = ch := Option.some.inj hch
        simp [fadeChords]
      | succ k2 =>
        rw [List.getElem?_cons_succ] at hch
        simp only [fadeChords, List.zipWith_cons_cons, List.getD_cons_succ]
        exact ih opsr k2 ch d hch (Nat.lt_of_succ_lt_succ (by simpa using hk))

theorem mEntry_pos_left {m : List (List α)} {i j : Nat}
    (h : 0 < mEntry m i j) : i < m.length := by
  by_contra hc
  push_neg at hc
  unfold mEntry at h
  rw [List.getD_eq_default _ _ hc] at h
  simp at h

theorem isSquare_row_length {m : List (List α)} (hsq : isSquare m = true)
    {g : Nat} (hg : g < m.length) : (m.getD g []).length = m.length := by
  unfold isSquare at hsq
  rw [List.all_eq_true] at hsq
  have hmem : m.getD g [] ∈ m := by
    rw [List.getD_eq_getElem _ _ hg]
    exact List.getElem_mem hg
  simpa using hsq _ hmem

theorem mEntry_pos_col {m : List (List α)} (hsq : isSquare m = true)
    {g i : Nat} (h : 0 < mEntry m g i) : i < m.length := by
  have hg := mEntry_pos_left h
  by_contra hc
  push_neg at hc
  unfold mEntry at h
  rw [List.getD_eq_default _ _ (by rw [isSquare_row_length hsq hg]; exact hc)]
    at h
  simp at h

theorem mem_relatedGroups {twoPi padding : α} {m : List (List α)}
    {i g : Nat} :
    g ∈ relatedGroups i (layoutChords twoPi padding m)
      ↔ g = i ∨ (i < m.length ∧ g < m.length ∧ i ≠ g ∧
          (0 < mEntry m i g ∨ 0 < mEntry m g i)) := by
  unfold relatedGroups
  rw [List.mem_append, List.mem_flatMap]
  constructor
  · rintro (⟨c, hc, hmem⟩ | hg)
    · rcases mem_layoutChords.mp hc with ⟨a, b, ha, hb, hab, hpos, rfl⟩
      rw [List.mem_append] at hmem
      right
      rcases hmem with h1 | h1
      · rw [mkChord_source_index, mkChord_target_index] at h1
        by_cases hai : a = i
        · rw [if_pos hai] at h1
          have hg2 : g = b := List.mem_singleton.mp h1
          subst hai hg2
          exact ⟨ha, hb, hab, Or.inl hpos⟩
        · rw [if_neg hai] at h1
          cases h1
      · rw [mkChord_source_index, mkChord_target_index] at h1
        by_cases hbi : b = i
        · rw [if_pos hbi] at h1
          have hg2 : g = a := List.mem_singleton.mp h1
          subst hbi hg2
          exact ⟨hb, ha, Ne.symm hab, Or.inr hpos⟩
        · rw [if_neg hbi] at h1
          cases h1
    · exact Or.inl (List.mem_singleton.mp hg)
  · rintro (rfl | ⟨hi, hg, hig, hpos | hpos⟩)
    · exact Or.inr (List.mem_singleton.mpr rfl)
    · refine Or.inl ⟨mkChord twoPi padding m i g,
        mem_layoutChords.mpr ⟨i, g, hi, hg, hig, hpos, rfl⟩, ?_⟩
      rw [List.mem_append]
      left
      rw [mkChord_source_index, mkChord_target_index, if_pos rfl]
      exact List.mem_singleton.mpr rfl
    · refine Or.inl ⟨mkChord twoPi padding m g i,
        mem_layoutChords.mpr ⟨g, i, hg, hi, Ne.symm hig, hpos, rfl⟩, ?_⟩
      rw [List.mem_append]
      right
      rw [mkChord_source_index, mkChord_target_index, if_pos rfl]
      exact List.mem_singleton.mpr rfl

end Lemmas

section Claims

variable {α : Type} [LinearOrderedField α] {P : Type}

attribute [local semireducible] Rat.add Rat.sub Rat.mul Rat.inv

/-- C10: a falsy (zero) `width`, `margin` or `padding` in the options object
is silently replaced by the defaults 700, 150 and 0.02 respectively (source
lines 37-39, `options.x || default`); consequently no caller can configure a
zero width, margin or padding through the options object. -/
theorem options_falsy_defaults :
    resolveWidth ⟨some 0, none, none⟩ = 700 ∧
    resolveMargin ⟨none, some 0, none⟩ = 150 ∧
    resolvePadding ⟨none, none, some 0⟩ = 1 / 50 ∧
    ∀ o : Options, resolveWidth o ≠ 0 ∧ resolveMargin o ≠ 0 ∧
      resolvePadding o ≠ 0 := by
  refine ⟨rfl, rfl, rfl, fun o => ?_⟩
  obtain ⟨w, mg, pd⟩ := o
  refine ⟨?_, ?_, ?_⟩
  · cases w with
    | none => simp [resolveWidth]
    | some v => by_cases hv : v = 0 <;> simp [resolveWidth, hv]
  · cases mg with
    | none => simp [resolveMargin]
    | some v => by_cases hv : v = 0 <;> simp [resolveMargin, hv]
  · cases pd with
    | none => simp [resolvePadding]
    | some v => by_cases hv : v = 0 <;> simp [resolvePadding, hv]

/-- C9: the layout is a pure function — two runs on the same `(matrix,
padding)` yield identical group angles and chord angle lists — and the
subgroup order of every group is the stable descending-weight sort: a
permutation of the original sub-arc enumeration, sorted by descending weight
with ties kept in original position order. -/
theorem layout_deterministic (twoPi padding : α) (m : List (List α)) :
    layout twoPi padding m = layout twoPi padding m ∧
    ∀ i : Nat, (sortedArcs m i).Perm (rawArcs m i) ∧
      (sortedArcs m i).Sorted arcLe :=
  ⟨rfl, fun _ =>
    ⟨List.perm_insertionSort arcLe _, List.sorted_insertionSort arcLe _⟩⟩

/-- C8: for a well-formed (square, non-negative) matrix, a padding with
`padding · N ≥ 2π` makes the layout fail with a LayoutError instead of
producing any sectors; `twoPi` is the full-circle constant. -/
theorem padding_overflow_fails (twoPi padding : α) (m : List (List α))
    (hsq : isSquare m = true) (hneg : hasNeg m = false)
    (h : twoPi ≤ padding * m.length) :
    layout twoPi padding m = Except.error LayoutErr.layoutError := by
  unfold layout
  rw [if_pos hsq, if_neg (by simp [hneg]), if_pos h]

/-- Witness for C8 at a concrete input: a 2×2 matrix with padding 4 and
full circle 7 (padding · N = 8 ≥ 7). -/
theorem padding_overflow_fails_witness :
    (isSquare ([[0, 1], [1, 0]] : List (List ℚ)) = true ∧
      hasNeg ([[0, 1], [1, 0]] : List (List ℚ)) = false ∧
      (7 : ℚ) ≤ 4 * (([[0, 1], [1, 0]] : List (List ℚ)).length : ℚ)) ∧
    layout (7 : ℚ) 4 [[0, 1], [1, 0]]
      = Except.error LayoutErr.layoutError :=
  ⟨⟨by decide, by decide, by decide⟩,
    padding_overflow_fails 7 4 _ (by decide) (by decide) (by decide)⟩

/-- C6 counterexample: with matrix `[[0,1,0],[0,0,0],[0,0,0]]`, after
`fadeOut(2)` dims the chord 0→1, invoking `fadeIn` with index 0 leaves that
chord at opacity 1/10: `fadeIn` only touches elements unrelated to its own
index, so it does not restore opacity 1 to all elements regardless of the
index it is invoked with. -/
theorem fadeIn_other_index_leaves_dim :
    (fadeIn 0 (layoutChords (7 : ℚ) 0 [[0, 1, 0], [0, 0, 0], [0, 0, 0]])
        (fadeOut 2 (layoutChords (7 : ℚ) 0 [[0, 1, 0], [0, 0, 0], [0, 0, 0]])
          (neutral (layoutChords (7 : ℚ) 0 [[0, 1, 0], [0, 0, 0], [0, 0, 0]])
            3))).chordOps
      = [1 / 10] ∧
    (1 : ℚ) / 10 ≠ 1 := by
  constructor <;> decide

/-- C6 (amended): `fadeOut(i)` followed by `fadeIn` invoked with the same
index `i` restores every chord and every group label to opacity 1, for every
focus index `i`; `fadeIn` only touches elements unrelated to the index it is
invoked with, so with a different index it can leave elements dimmed. -/
theorem fadeIn_fadeOut_roundtrip (i : Nat) (chs : List (ChordRecord α))
    (n : Nat) :
    fadeIn i chs (fadeOut i chs (neutral chs n)) = neutral chs n := by
  unfold fadeIn fadeOut fade neutral
  exact congrArg₂ FadeState.mk (fadeChords_double chs) (fadeLabels_double n 0)

/-- C1: the code of `getChosenNode` evaluated at the failing input.  With
`packages` present (modelled as the numbers 10, 11, 12 for the three nodes),
matrix `[[0,1,1],[0,0,1],[0,0,0]]` and selected index 2, the dependents list
comes out as `[packages[2], packages[2]]` — the source reads `packages[idx]`
with the selected index instead of the row index — whereas the claim (and
the name-mode branch on the same line) calls for `[packages[0],
packages[1]]`. -/
theorem requiresList_packages_failing_input :
    requiresList (α := ℚ) [[0, 1, 1], [0, 0, 1], [0, 0, 0]]
        [("Main"), ("A"), ("B")] (some [(10 : Nat), 11, 12]) 2
      = [JVal.pkg 12, JVal.pkg 12] ∧
    ([JVal.pkg 12, JVal.pkg 12] : List (JVal Nat))
      ≠ [JVal.pkg 10, JVal.pkg 11] ∧
    requiresList (α := ℚ) (P := Nat) [[0, 1, 1], [0, 0, 1], [0, 0, 0]]
        [("Main"), ("A"), ("B")] none 2
      = [JVal.str ("Main"), JVal.str ("A")] := by
  refine ⟨by decide, by decide, by decide⟩

/-- C2: no entry of the matrix diagonal ever produces a ChordRecord — every
chord in the layout's chord list connects two distinct node indices. -/
theorem no_self_chord (twoPi padding : α) (m : List (List α))
    (res : LayoutResult α) (hok : layout twoPi padding m = Except.ok res) :
    ∀ c ∈ res.chords, c.source.index ≠ c.target.index := by
  intro c hc
  rw [layout_ok_elim hok] at hc
  rcases mem_layoutChords.mp hc with ⟨i, j, _, _, hne, _, rfl⟩
  rw [mkChord_source_index, mkChord_target_index]
  exact hne

/-- Witness for C2 at a concrete input: the single chord of the matrix
`[[0,1],[0,0]]` has source index 0 and target index 1. -/
theorem no_self_chord_witness :
    (layout (7 : ℚ) 0 [[0, 1], [0, 0]]
        = Except.ok ⟨layoutGroups (7 : ℚ) 0 [[0, 1], [0, 0]],
            layoutChords (7 : ℚ) 0 [[0, 1], [0, 0]]⟩ ∧
      mkChord (7 : ℚ) 0 [[0, 1], [0, 0]] 0 1
        ∈ layoutChords (7 : ℚ) 0 [[0, 1], [0, 0]]) ∧
    (mkChord (7 : ℚ) 0 [[0, 1], [0, 0]] 0 1).source.index
      ≠ (mkChord (7 : ℚ) 0 [[0, 1], [0, 0]] 0 1).target.index :=
  ⟨⟨rfl, by decide⟩,
    no_self_chord 7 0 [[0, 1], [0, 0]]
      ⟨layoutGroups (7 : ℚ) 0 [[0, 1], [0, 0]],
        layoutChords (7 : ℚ) 0 [[0, 1], [0, 0]]⟩ (by rfl)
      (mkChord (7 : ℚ) 0 [[0, 1], [0, 0]] 0 1) (by decide)⟩

/-- C3: for every off-diagonal positive entry `(i, j)` of the matrix, the
layout's chord list contains exactly one ChordRecord whose source index is
`i` and whose target index is `j`; chords are directed, so an asymmetric pair
`(i, j)` and `(j, i)` yields two independent chords. -/
theorem chord_per_entry_unique (twoPi padding : α) (m : List (List α))
    (res : LayoutResult α) (hok : layout twoPi padding m = Except.ok res)
    (i j : Nat) (hi : i < m.length) (hj : j < m.length) (hij : i ≠ j)
    (hpos : 0 < mEntry m i j) :
    res.chords.countP
      (fun c => decide (c.source.index = i ∧ c.target.index = j)) = 1 := by
  rw [layout_ok_elim hok]
  have h1 : (layoutChords twoPi padding m).countP
        (fun c => decide (c.source.index = i ∧ c.target.index = j))
      = (layoutChords twoPi padding m).countP
        (fun c => decide ((c.source.index, c.target.index) = (i, j))) := by
    refine List.countP_congr ?_
    intro c _
    simp only [decide_eq_true_eq, Prod.mk.injEq]
  have h2 : (layoutChords twoPi padding m).countP
        (fun c => decide ((c.source.index, c.target.index) = (i, j)))
      = ((layoutChords twoPi padding m).map
          (fun c => (c.source.index, c.target.index))).countP
          (fun x => decide (x = (i, j))) := by
    rw [List.countP_map]
    rfl
  rw [h1, h2, layoutChords_map_pair]
  exact countP_eq_one_of_nodup_mem (chordPairs_nodup m)
    (mem_chordPairs.mpr ⟨hi, hj, hij, hpos⟩)

/-- Witness for C3 at a concrete input: the asymmetric matrix `[[0,1],[3,0]]`
has exactly one chord with source 0 and target 1. -/
theorem chord_per_entry_unique_witness :
    (layout (7 : ℚ) 0 [[0, 1], [3, 0]]
        = Except.ok ⟨layoutGroups (7 : ℚ) 0 [[0, 1], [3, 0]],
            layoutChords (7 : ℚ) 0 [[0, 1], [3, 0]]⟩ ∧
      0 < ([[0, 1], [3, 0]] : List (List ℚ)).length ∧
      1 < ([[0, 1], [3, 0]] : List (List ℚ)).length ∧
      (0 : Nat) ≠ 1 ∧ 0 < mEntry ([[0, 1], [3, 0]] : List (List ℚ)) 0 1) ∧
    (layoutChords (7 : ℚ) 0 [[0, 1], [3, 0]]).countP
        (fun c => decide (c.source.index = 0 ∧ c.target.index = 1)) = 1 :=
  ⟨⟨rfl, by decide, by decide, by decide, by decide⟩,
    chord_per_entry_unique 7 0 [[0, 1], [3, 0]]
      ⟨layoutGroups (7 : ℚ) 0 [[0, 1], [3, 0]],
        layoutChords (7 : ℚ) 0 [[0, 1], [3, 0]]⟩ (by rfl) 0 1
      (by decide) (by decide) (by decide) (by decide)⟩

/-- C7: for every non-empty valid matrix, group 0 starts at angle 0, the
rotation offset of source line 142 equals the negation of group 0's midpoint
angle, and the rotated midpoint of group 0 is exactly 0. -/
theorem rotation_centers_root (twoPi padding : α) (m : List (List α))
    (res : LayoutResult α) (hok : layout twoPi padding m = Except.ok res)
    (hne : m ≠ []) :
    (rootGroup res).startAngle = 0 ∧
    rotation res
      = -(((rootGroup res).startAngle + (rootGroup res).endAngle) / 2) ∧
    ((rootGroup res).startAngle + (rootGroup res).endAngle) / 2
      + rotation res = 0 := by
  have hres := layout_ok_elim hok
  subst hres
  have hlen : 0 < m.length := List.length_pos.mpr hne
  have hroot : rootGroup (α := α)
      ⟨layoutGroups twoPi padding m, layoutChords twoPi padding m⟩
      = mkGroup twoPi padding m 0 := by
    unfold rootGroup layoutGroups
    have h0 : 0 < (((List.range m.length)).map fun i =>
        mkGroup twoPi padding m i).length := by
      simpa using hlen
    rw [List.getD_eq_getElem _ _ h0]
    simp
  unfold rotation
  rw [hroot]
  have hstart : (mkGroup twoPi padding m 0).startAngle = 0 := by
    simp [mkGroup, groupStart]
  rw [hstart]
  refine ⟨rfl, by ring, by ring⟩

/-- Witness for C7 at a concrete input: the layout of `[[0,1],[0,0]]` places
group 0 at start angle 0. -/
theorem rotation_centers_root_witness :
    (layout (7 : ℚ) 0 [[0, 1], [0, 0]]
        = Except.ok ⟨layoutGroups (7 : ℚ) 0 [[0, 1], [0, 0]],
            layoutChords (7 : ℚ) 0 [[0, 1], [0, 0]]⟩ ∧
      ([[0, 1], [0, 0]] : List (List ℚ)) ≠ []) ∧
    (rootGroup (⟨layoutGroups (7 : ℚ) 0 [[0, 1], [0, 0]],
        layoutChords (7 : ℚ) 0 [[0, 1], [0, 0]]⟩ : LayoutResult ℚ)).startAngle
      = 0 :=
  ⟨⟨rfl, by decide⟩,
    (rotation_centers_root 7 0 [[0, 1], [0, 0]]
      ⟨layoutGroups (7 : ℚ) 0 [[0, 1], [0, 0]],
        layoutChords (7 : ℚ) 0 [[0, 1], [0, 0]]⟩ (by rfl) (by decide)).1⟩

/-- C4 counterexample: with matrix `[[1]]` (a non-zero diagonal) and node
name `a`, selecting index 0 produces the dependency list `[a]` — the selected
node itself — whereas the claim says the selected node is excluded from both
lists even when `matrix[i][i]` is non-zero, which would force an empty
list here.  `getChosenNode` has no diagonal exclusion. -/
theorem deps_include_self_counterexample :
    depsList (α := ℚ) (P := Nat) [[1]] [("a")] none 0 = [JVal.str ("a")] ∧
    depsList (α := ℚ) (P := Nat) [[1]] [("a")] none 0 ≠ [] := by
  constructor <;> decide

/-- C4 (amended): in both callback lists every zero-weight entry is omitted
and no falsy placeholder remains (an all-zero row yields an empty dependency
list, an all-zero column an empty dependents list); however the selected node
`idx` itself appears in the dependency list whenever `matrix[idx][idx]` is
non-zero (and its value is truthy) — there is no diagonal exclusion in
`getChosenNode`. -/
theorem lists_omit_zero_and_keep_self (m : List (List α))
    (names : List String) (pk : Option (List P)) (idx : Nat) :
    (∀ x ∈ depsList m names pk idx, x.truthy = true) ∧
    (∀ x ∈ requiresList m names pk idx, x.truthy = true) ∧
    ((∀ v ∈ m.getD idx [], v = 0) → depsList m names pk idx = []) ∧
    ((∀ row ∈ m, row.getD idx 0 = 0) → requiresList m names pk idx = []) ∧
    (mEntry m idx idx ≠ 0 → idx < (m.getD idx []).length →
      (nodeVal pk names idx).truthy = true →
      nodeVal pk names idx ∈ depsList m names pk idx) := by
  refine ⟨?_, ?_, depsList_nil_of_zero_row m names pk idx,
    requiresList_nil_of_zero_col m names pk idx, ?_⟩
  · intro x hx
    exact (List.mem_filter.mp hx).2
  · intro x hx
    exact (List.mem_filter.mp hx).2
  · intro hdiag hlt htr
    unfold depsList
    refine List.mem_filter.mpr ⟨?_, htr⟩
    refine List.getElem?_mem (n := idx) ?_
    rw [jsMapIdx_getElem, List.getElem?_eq_getElem hlt]
    simp only [Option.map_some']
    rw [Nat.zero_add]
    have hne : (m.getD idx [])[idx] ≠ 0 := by
      have h2 := hdiag
      unfold mEntry at h2
      rwa [List.getD_eq_getElem _ _ hlt] at h2
    rw [if_pos hne]

/-- Witness for the amended C4 at a concrete input: with matrix `[[1]]` the
selected node 0 itself lands in the dependency list. -/
theorem lists_omit_zero_and_keep_self_witness :
    (mEntry (α := ℚ) [[1]] 0 0 ≠ 0 ∧
      0 < (([[1]] : List (List ℚ)).getD 0 []).length ∧
      (nodeVal (P := Nat) none [("a")] 0).truthy = true) ∧
    nodeVal (P := Nat) none [("a")] 0
      ∈ depsList (α := ℚ) [[1]] [("a")] none 0 :=
  ⟨⟨by decide, by decide, by decide⟩,
    (lists_omit_zero_and_keep_self (α := ℚ) [[1]] [("a")] none 0).2.2.2.2
      (by decide) (by decide) (by decide)⟩

/-- C5: for every focus index `i` on a square matrix, after `fadeOut(i)` from
the neutral state the non-dimmed (opacity 1) group labels are exactly those
with index in `{i} ∪ {g : matrix[i][g] > 0 or matrix[g][i] > 0}`, and the
non-dimmed chords are exactly those whose source or target index equals
`i`. -/
theorem fade_highlight (twoPi padding : α) (m : List (List α)) (i : Nat)
    (hsq : isSquare m = true) :
    (∀ g, g < m.length →
      (((fadeOut i (layoutChords twoPi padding m)
          (neutral (layoutChords twoPi padding m) m.length)).labelOps.getD g 0
            = 1)
        ↔ (g = i ∨ 0 < mEntry m i g ∨ 0 < mEntry m g i))) ∧
    (∀ k ch, (layoutChords twoPi padding m)[k]? = some ch →
      (((fadeOut i (layoutChords twoPi padding m)
          (neutral (layoutChords twoPi padding m) m.length)).chordOps.getD k 0
            = 1)
        ↔ (ch.source.index = i ∨ ch.target.index = i))) := by
  have h110 : (1 : α) / 10 ≠ 1 := by norm_num
  constructor
  · intro g hg
    have hstate : (fadeOut i (layoutChords twoPi padding m)
        (neutral (layoutChords twoPi padding m) m.length)).labelOps
        = fadeLabels (1 / 10)
            (relatedGroups i (layoutChords twoPi padding m)) 0
            (List.replicate m.length 1) := rfl
    rw [hstate, fadeLabels_getD _ 0 g 0 (by simpa using hg), Nat.zero_add]
    have hrep : (List.replicate m.length (1 : α)).getD g 0 = 1 := by
      rw [List.getD_eq_getElem _ _ (by simpa using hg)]
      simp
    rw [hrep]
    by_cases hmem : g ∈ relatedGroups i (layoutChords twoPi padding m)
    · rw [if_pos hmem]
      constructor
      · intro _
        rcases mem_relatedGroups.mp hmem with rfl | ⟨_, _, _, hp | hp⟩
        · exact Or.inl rfl
        · exact Or.inr (Or.inl hp)
        · exact Or.inr (Or.inr hp)
      · intro _
        rfl
    · rw [if_neg hmem]
      constructor
      · intro h
        exact absurd h h110
      · intro hr
        exfalso
        apply hmem
        apply mem_relatedGroups.mpr
        rcases hr with rfl | hp | hp
        · exact Or.inl rfl
        · by_cases hig : g = i
          · exact Or.inl hig
          · exact Or.inr ⟨mEntry_pos_left hp, hg,
              fun h => hig h.symm, Or.inl hp⟩
        · by_cases hig : g = i
          · exact Or.inl hig
          · exact Or.inr ⟨mEntry_pos_col hsq hp, hg,
              fun h => hig h.symm, Or.inr hp⟩
  · intro k ch hch
    have hk : k < (layoutChords twoPi padding m).length := by
      rcases List.getElem?_eq_some_iff.mp hch with ⟨hlt, _⟩
      exact hlt
    have hstate : (fadeOut i (layoutChords twoPi padding m)
        (neutral (layoutChords twoPi padding m) m.length)).chordOps
        = fadeChords (1 / 10) i (layoutChords twoPi padding m)
            (List.replicate (layoutChords twoPi padding m).length 1) := rfl
    rw [hstate, fadeChords_getD _ _ k ch 0 hch (by simpa using hk)]
    have hrep : (List.replicate (layoutChords twoPi padding m).length
        (1 : α)).getD k 0 = 1 := by
      rw [List.getD_eq_getElem _ _ (by simpa using hk)]
      simp
    rw [hrep]
    by_cases hcond : ch.source.index ≠ i ∧ ch.target.index ≠ i
    · rw [if_pos hcond]
      constructor
      · intro h
        exact absurd h h110
      · rintro (h | h)
        · exact absurd h hcond.1
        · exact absurd h hcond.2
    · rw [if_neg hcond]
      constructor
      · intro _
        by_cases h1 : ch.source.index = i
        · exact Or.inl h1
        · refine Or.inr ?_
          by_contra h2
          exact hcond ⟨h1, h2⟩
      · intro _
        rfl

/-- Witness for C5 at a concrete input: for the matrix `[[0,1],[0,0]]` with
focus index 0, the label of group 1 stays at opacity 1 iff 1 is related to 0,
which holds since `matrix[0][1] > 0`. -/
theorem fade_highlight_witness :
    (isSquare ([[0, 1], [0, 0]] : List (List ℚ)) = true ∧
      1 < ([[0, 1], [0, 0]] : List (List ℚ)).length) ∧
    (((fadeOut 0 (layoutChords (7 : ℚ) 0 [[0, 1], [0, 0]])
        (neutral (layoutChords (7 : ℚ) 0 [[0, 1], [0, 0]])
          ([[0, 1], [0, 0]] : List (List ℚ)).length)).labelOps.getD 1 0 = 1)
      ↔ (1 = 0 ∨ 0 < mEntry ([[0, 1], [0, 0]] : List (List ℚ)) 0 1
          ∨ 0 < mEntry ([[0, 1], [0, 0]] : List (List ℚ)) 1 0)) :=
  ⟨⟨by decide, by decide⟩,
    (fade_highlight 7 0 [[0, 1], [0, 0]] 0 (by decide)).1 1 (by decide)⟩

end Claims

end DepWheel
